import Mathlib

/-!
Shallow embedding of the pgx_fdw protocol adapter (src/src/lib.rs) and of the
in-memory example plugin (src/examples/inmem_table/src/lib.rs).

Host raw values (pg_sys::Datum) are modelled as natural numbers; type oids as
natural numbers; a C string that may fail UTF-8 decoding is modelled as an
`Option String` (none = undecodable bytes).  Rust panics and pgx fatal errors
are modelled by `Option`-valued functions returning `none`.
-/

namespace PgxFdw

/-- Raw host value (pg_sys::Datum). -/
abbrev Datum := Nat

/-- Type oid (pgx::PgOid). -/
abbrev Oid := Nat

/-- pub type Tuple = (String, Option<pg_sys::Datum>, pgx::PgOid). -/
abbrev Tuple := String × Option Datum × Oid

/-- One column descriptor of a tuple descriptor (pg_sys attribute data used by
the adapter: name, attnum, atttypid, atttypmod, attcollation). -/
structure Attr where
  name : String
  attnum : Nat
  atttypid : Oid
  atttypmod : Int
  attcollation : Nat
deriving Repr, DecidableEq

/-- A tuple descriptor is its ordered attribute list (PgTupleDesc). -/
abbrev TupleDesc := List Attr

/-! ## Option Catalog Reader (FdwOptions) -/

/-- One catalog DefElem: the key C string and the value C string, each either
decodable to text (`some s`) or not (`none`, a Utf8Error in the source). -/
structure Elem where
  defname : Option String
  argval : Option String
deriving Repr, DecidableEq

/-- FdwOptions::elem_to_tuple.  Matches `(Ok(k), Ok(v))`; any decode failure
is a fatal `error!`, modelled as `none`. -/
def elem_to_tuple (e : Elem) : Option (String × String) :=
  match e.defname, e.argval with
  | some k, some v => some (k, v)
  | _, _ => none

/-- The HashMap<String, String> built by `collect`, modelled semantically as a
lookup function; `collect` is a fold of single-key inserts. -/
def hmInsert (m : String → Option String) (kv : String × String) : String → Option String :=
  fun k => if k = kv.1 then some kv.2 else m k

/-- Decoding of every DefElem of a pg list in order; the first fatal
decode error aborts the whole traversal (the `error!` in `elem_to_tuple`
never returns). -/
def decode_elems : List Elem → Option (List (String × String))
  | [] => some []
  | e :: l =>
    match elem_to_tuple e with
    | none => none
    | some p => (decode_elems l).map (p :: ·)

/-- FdwOptions::from_pg_list.  A null list yields an empty map; otherwise each
DefElem is decoded (fatally erroring on failure) and collected into a HashMap.
The surrounding pg list is `Option (List Elem)` with `none` = null pointer. -/
def from_pg_list (opts : Option (List Elem)) : Option (String → Option String) :=
  match opts with
  | none => some fun _ => none
  | some l => (decode_elems l).map fun ps => ps.foldl hmInsert fun _ => none

/-- FdwOptions (server options map, table options map, table identity). -/
structure FdwOptions where
  server_opts : String → Option String
  table_opts : String → Option String
  table_name : String
  table_namespace : String

/-- FdwOptions::from_relation: reads the server option list and the table
option list from the catalog and builds the two maps; a decode failure in
either list aborts the whole call (modelled by `none`). -/
def from_relation (serverOpts tableOpts : Option (List Elem))
    (name ns : String) : Option FdwOptions := do
  let s ← from_pg_list serverOpts
  let t ← from_pg_list tableOpts
  pure ⟨s, t, name, ns⟩

/-- Reference semantics of last-write-wins over a key/value sequence: the
value of the last pair whose key is `k`, if any. -/
def lastValue (ps : List (String × String)) (k : String) : Option String :=
  ps.foldl (fun acc kv => if kv.1 = k then some kv.2 else acc) none

lemma foldl_hmInsert_apply (ps : List (String × String))
    (m : String → Option String) (k : String) :
    (ps.foldl hmInsert m) k =
      ps.foldl (fun acc kv => if kv.1 = k then some kv.2 else acc) (m k) := by
  induction ps generalizing m with
  | nil => rfl
  | cons p ps ih =>
      simp only [List.foldl_cons, ih]
      by_cases h : p.1 = k
      · subst h
        simp [hmInsert]
      · have hk : ¬ k = p.1 := fun hk => h hk.symm
        simp [hmInsert, hk, h]

lemma collect_eq_lastValue (ps : List (String × String)) (k : String) :
    (ps.foldl hmInsert fun _ => none) k = lastValue ps k := by
  simpa [lastValue] using foldl_hmInsert_apply ps (fun _ => none) k

lemma elem_to_tuple_eq_none_of_bad {e : Elem}
    (hbad : e.defname = none ∨ e.argval = none) :
    elem_to_tuple e = none := by
  rcases e with ⟨_ | k, _ | v⟩
  · rfl
  · rfl
  · rfl
  · rcases hbad with h | h <;> simp_all

lemma decode_elems_eq_none_of_bad {l : List Elem} {e : Elem}
    (he : e ∈ l) (hbad : e.defname = none ∨ e.argval = none) :
    decode_elems l = none := by
  induction l with
  | nil => cases he
  | cons a l ih =>
      rcases List.mem_cons.mp he with h | h
      · subst h
        simp [decode_elems, elem_to_tuple_eq_none_of_bad hbad]
      · cases hx : elem_to_tuple a with
        | none => simp [decode_elems, hx]
        | some p => simp [decode_elems, hx, ih h]

/-! ## Row slots and the Tuple Codec -/

/-- A TupleTableSlot.  `backing` is the column data available to the slot
(stored physical tuple and its deformed value/null arrays); `nvalid` is
tts_nvalid, the number of materialized leading columns.  The visible
tts_values / tts_isnull arrays are the first `nvalid` entries of `backing`:
the Rust code builds slices of exactly that length via from_raw_parts. -/
structure Slot where
  backing : List (Datum × Bool)
  nvalid : Nat
deriving Repr, DecidableEq

/-- FdwState::get_some_attrs: asks the host slot implementation to
materialize the first `natts` columns (slot_getsomeattrs): the host
guarantees tts_nvalid = natts afterwards, filling columns the stored tuple
lacks with nulls. -/
def get_some_attrs (slot : Slot) (natts : Nat) : Slot :=
  { backing := slot.backing ++ List.replicate (natts - slot.backing.length) (0, true),
    nvalid := natts }

/-- The materialization step at the top of FdwState::slot_to_tuples: only a
slot with tts_nvalid = 0 is materialized. -/
def materialize (slot : Slot) (natts : Nat) : Slot :=
  if slot.nvalid = 0 then get_some_attrs slot natts else slot

/-- The per-column body of the map in FdwState::slot_to_tuples: for the
enumerated attribute `(i, attr)` read `datums[i]` and `nulls[i]` (an index at
or past the slice length is a Rust panic, modelled as `none`) and build
`(attr.name, Datum::from_datum(datums[i], nulls[i], oid), oid)`, where
`Datum::from_datum` yields `none` exactly when the null flag is set. -/
def decodeCols (datums : List Datum) (nulls : List Bool) :
    List (Nat × Attr) → Option (List Tuple)
  | [] => some []
  | (i, attr) :: rest => do
    let d ← datums[i]?
    let b ← nulls[i]?
    let ts ← decodeCols datums nulls rest
    pure ((attr.name, if b then none else some d, attr.atttypid) :: ts)

/-- FdwState::slot_to_tuples, also returning the slot as it stands after the
materialization side effect.  The value and null slices have length
tts_nvalid; the map runs over every attribute of the tuple descriptor. -/
def slot_to_tuplesM (slot : Slot) (desc : TupleDesc) : Option (Slot × List Tuple) :=
  let slot := materialize slot desc.length
  let datums := (slot.backing.take slot.nvalid).map Prod.fst
  let nulls := (slot.backing.take slot.nvalid).map Prod.snd
  (decodeCols datums nulls desc.enum).map fun ts => (slot, ts)

/-- FdwState::slot_to_tuples proper (the returned tuple list). -/
def slot_to_tuples (slot : Slot) (desc : TupleDesc) : Option (List Tuple) :=
  (slot_to_tuplesM slot desc).map (·.2)

/-- The indices at which slot_to_tuples indexes the value and null slices:
one read of each array per enumerated attribute of the descriptor. -/
def slot_to_tuples_reads (desc : TupleDesc) : List Nat :=
  List.range desc.length

/-- FdwState::exec_clear_tuple: the slot tts_clear callback empties the
slot. -/
def exec_clear_tuple (_slot : Slot) : Slot :=
  { backing := [], nvalid := 0 }

section Encode

variable {Item : Type}

/-- The loop of FdwState::store_tuple: walk the enumerated attributes,
consuming one plugin item per column from the row iterator; an item that
converts (`into_datum`) writes `datums[i]` and clears `nulls[i]`; a
non-converting item or an exhausted iterator leaves the column null. -/
def storeLoop (intoDatum : Item → Option Datum) :
    List (Nat × Attr) → List Item → List Datum → List Bool → List Datum × List Bool
  | [], _, datums, nulls => (datums, nulls)
  | (i, _attr) :: rest, itr, datums, nulls =>
    match itr with
    | [] => storeLoop intoDatum rest [] datums nulls
    | item :: itr' =>
      match intoDatum item with
      | some d => storeLoop intoDatum rest itr' (datums.set i d) (nulls.set i false)
      | none => storeLoop intoDatum rest itr' datums nulls

/-- FdwState::store_tuple: initialize `nulls` to all-true and `datums` to
all-zero (one entry per descriptor attribute), run the loop, then
heap_form_tuple + ExecStoreHeapTuple: the destination slot now holds the
formed tuple, with no column materialized yet (tts_nvalid = 0). -/
def store_tuple (_slot : Slot) (desc : TupleDesc) (intoDatum : Item → Option Datum)
    (row : List Item) : Slot :=
  let attrs_len := desc.length
  let init := storeLoop intoDatum desc.enum row
    (List.replicate attrs_len 0) (List.replicate attrs_len true)
  { backing := init.1.zip init.2, nvalid := 0 }

/-- The cell the Encode direction is expected to produce for column `k`:
the converted raw value of the k-th plugin item when it exists and converts,
null otherwise. -/
def storedCell (intoDatum : Item → Option Datum) (row : List Item) (k : Nat) :
    Datum × Bool :=
  match (row[k]?).bind intoDatum with
  | some d => (d, false)
  | none => (0, true)

lemma storeLoop_fst_getElem? (intoDatum : Item → Option Datum) (desc : List Attr) :
    ∀ (n : Nat) (itr : List Item) (datums : List Datum) (nulls : List Bool) (k : Nat),
    (storeLoop intoDatum (List.enumFrom n desc) itr datums nulls).1[k]? =
      if n ≤ k ∧ k < n + desc.length then
        match (itr[k - n]?).bind intoDatum with
        | some d => (datums.set k d)[k]?
        | none => datums[k]?
      else datums[k]? := by
  induction desc with
  | nil =>
      intro n itr datums nulls k
      rw [if_neg (by simp only [List.length_nil]; omega)]
      rfl
  | cons a rest ih =>
      intro n itr datums nulls k
      rw [List.enumFrom_cons]
      cases itr with
      | nil =>
          have hstep : storeLoop intoDatum ((n, a) :: List.enumFrom (n + 1) rest)
              [] datums nulls =
              storeLoop intoDatum (List.enumFrom (n + 1) rest) [] datums nulls := rfl
          rw [hstep, ih]
          simp only [List.getElem?_nil, Option.none_bind]
          rw [ite_self, ite_self]
      | cons item itr' =>
          cases h : intoDatum item with
          | some d =>
              have hstep : storeLoop intoDatum ((n, a) :: List.enumFrom (n + 1) rest)
                  (item :: itr') datums nulls =
                  storeLoop intoDatum (List.enumFrom (n + 1) rest) itr'
                    (datums.set n d) (nulls.set n false) := by
                simp [storeLoop, h]
              rw [hstep, ih]
              by_cases hkn : k < n
              · rw [if_neg (by omega), if_neg (by simp only [List.length_cons]; omega),
                  List.getElem?_set_ne (by omega : n ≠ k)]
              · by_cases hk : k = n
                · subst hk
                  rw [if_neg (by omega),
                    if_pos ⟨Nat.le_refl k, by simp only [List.length_cons]; omega⟩]
                  simp [h]
                · by_cases hw : k < n + 1 + rest.length
                  · rw [if_pos ⟨by omega, hw⟩,
                      if_pos ⟨by omega, by simp only [List.length_cons]; omega⟩]
                    have hidx : (item :: itr')[k - n]? = itr'[k - (n + 1)]? := by
                      rw [show k - n = (k - (n + 1)) + 1 from by omega]
                      simp
                    rw [hidx]
                    cases hx : (itr'[k - (n + 1)]?).bind intoDatum with
                    | some d' =>
                        simp only
                        rw [List.getElem?_set_self', List.getElem?_set_self',
                          List.getElem?_set_ne (by omega : n ≠ k)]
                    | none =>
                        simp only
                        rw [List.getElem?_set_ne (by omega : n ≠ k)]
                  · rw [if_neg (by omega),
                      if_neg (by simp only [List.length_cons]; omega),
                      List.getElem?_set_ne (by omega : n ≠ k)]
          | none =>
              have hstep : storeLoop intoDatum ((n, a) :: List.enumFrom (n + 1) rest)
                  (item :: itr') datums nulls =
                  storeLoop intoDatum (List.enumFrom (n + 1) rest) itr' datums nulls := by
                simp [storeLoop, h]
              rw [hstep, ih]
              by_cases hkn : k < n
              · rw [if_neg (by omega), if_neg (by simp only [List.length_cons]; omega)]
              · by_cases hk : k = n
                · subst hk
                  rw [if_neg (by omega),
                    if_pos ⟨Nat.le_refl k, by simp only [List.length_cons]; omega⟩]
                  simp [h]
                · by_cases hw : k < n + 1 + rest.length
                  · rw [if_pos ⟨by omega, hw⟩,
                      if_pos ⟨by omega, by simp only [List.length_cons]; omega⟩]
                    have hidx : (item :: itr')[k - n]? = itr'[k - (n + 1)]? := by
                      rw [show k - n = (k - (n + 1)) + 1 from by omega]
                      simp
                    rw [hidx]
                  · rw [if_neg (by omega),
                      if_neg (by simp only [List.length_cons]; omega)]

lemma storeLoop_snd_getElem? (intoDatum : Item → Option Datum) (desc : List Attr) :
    ∀ (n : Nat) (itr : List Item) (datums : List Datum) (nulls : List Bool) (k : Nat),
    (storeLoop intoDatum (List.enumFrom n desc) itr datums nulls).2[k]? =
      if n ≤ k ∧ k < n + desc.length then
        match (itr[k - n]?).bind intoDatum with
        | some _ => (nulls.set k false)[k]?
        | none => nulls[k]?
      else nulls[k]? := by
  induction desc with
  | nil =>
      intro n itr datums nulls k
      rw [if_neg (by simp only [List.length_nil]; omega)]
      rfl
  | cons a rest ih =>
      intro n itr datums nulls k
      rw [List.enumFrom_cons]
      cases itr with
      | nil =>
          have hstep : storeLoop intoDatum ((n, a) :: List.enumFrom (n + 1) rest)
              [] datums nulls =
              storeLoop intoDatum (List.enumFrom (n + 1) rest) [] datums nulls := rfl
          rw [hstep, ih]
          simp only [List.getElem?_nil, Option.none_bind]
          rw [ite_self, ite_self]
      | cons item itr' =>
          cases h : intoDatum item with
          | some d =>
              have hstep : storeLoop intoDatum ((n, a) :: List.enumFrom (n + 1) rest)
                  (item :: itr') datums nulls =
                  storeLoop intoDatum (List.enumFrom (n + 1) rest) itr'
                    (datums.set n d) (nulls.set n false) := by
                simp [storeLoop, h]
              rw [hstep, ih]
              by_cases hkn : k < n
              · rw [if_neg (by omega), if_neg (by simp only [List.length_cons]; omega),
                  List.getElem?_set_ne (by omega : n ≠ k)]
              · by_cases hk : k = n
                · subst hk
                  rw [if_neg (by omega),
                    if_pos ⟨Nat.le_refl k, by simp only [List.length_cons]; omega⟩]
                  simp [h]
                · by_cases hw : k < n + 1 + rest.length
                  · rw [if_pos ⟨by omega, hw⟩,
                      if_pos ⟨by omega, by simp only [List.length_cons]; omega⟩]
                    have hidx : (item :: itr')[k - n]? = itr'[k - (n + 1)]? := by
                      rw [show k - n = (k - (n + 1)) + 1 from by omega]
                      simp
                    rw [hidx]
                    cases hx : (itr'[k - (n + 1)]?).bind intoDatum with
                    | some d' =>
                        simp only
                        rw [List.getElem?_set_self', List.getElem?_set_self',
                          List.getElem?_set_ne (by omega : n ≠ k)]
                    | none =>
                        simp only
                        rw [List.getElem?_set_ne (by omega : n ≠ k)]
                  · rw [if_neg (by omega),
                      if_neg (by simp only [List.length_cons]; omega),
                      List.getElem?_set_ne (by omega : n ≠ k)]
          | none =>
              have hstep : storeLoop intoDatum ((n, a) :: List.enumFrom (n + 1) rest)
                  (item :: itr') datums nulls =
                  storeLoop intoDatum (List.enumFrom (n + 1) rest) itr' datums nulls := by
                simp [storeLoop, h]
              rw [hstep, ih]
              by_cases hkn : k < n
              · rw [if_neg (by omega), if_neg (by simp only [List.length_cons]; omega)]
              · by_cases hk : k = n
                · subst hk
                  rw [if_neg (by omega),
                    if_pos ⟨Nat.le_refl k, by simp only [List.length_cons]; omega⟩]
                  simp [h]
                · by_cases hw : k < n + 1 + rest.length
                  · rw [if_pos ⟨by omega, hw⟩,
                      if_pos ⟨by omega, by simp only [List.length_cons]; omega⟩]
                    have hidx : (item :: itr')[k - n]? = itr'[k - (n + 1)]? := by
                      rw [show k - n = (k - (n + 1)) + 1 from by omega]
                      simp
                    rw [hidx]
                  · rw [if_neg (by omega),
                      if_neg (by simp only [List.length_cons]; omega)]

/-- Pointwise description of the row the Encode direction stores. -/
lemma store_tuple_backing (slot : Slot) (desc : TupleDesc)
    (intoDatum : Item → Option Datum) (row : List Item) :
    (store_tuple slot desc intoDatum row).backing =
      (List.range desc.length).map (storedCell intoDatum row) := by
  apply List.ext_getElem?
  intro k
  have h1 := storeLoop_fst_getElem? intoDatum desc 0 row
    (List.replicate desc.length 0) (List.replicate desc.length true) k
  have h2 := storeLoop_snd_getElem? intoDatum desc 0 row
    (List.replicate desc.length 0) (List.replicate desc.length true) k
  simp only [store_tuple, List.enum]
  rw [List.zip_eq_zipWith, List.getElem?_zipWith, h1, h2, List.getElem?_map]
  by_cases hk : k < desc.length
  · rw [List.getElem?_range hk]
    rw [if_pos ⟨Nat.zero_le k, by omega⟩, if_pos ⟨Nat.zero_le k, by omega⟩]
    simp only [Nat.sub_zero]
    cases hx : (row[k]?).bind intoDatum with
    | some d =>
        simp [hx, storedCell, List.getElem?_set_self', List.getElem?_replicate, hk]
    | none =>
        simp [hx, storedCell, List.getElem?_replicate, hk]
  · rw [if_neg (by omega), if_neg (by omega)]
    have hr : (List.range desc.length)[k]? = none :=
      List.getElem?_eq_none (by simpa [List.length_range] using Nat.le_of_not_lt hk)
    simp [hr, List.getElem?_replicate, hk]
end Encode

lemma decodeCols_spec (datums : List Datum) (nulls : List Bool)
    (dval : Nat → Datum) (bval : Nat → Bool) :
    ∀ (desc : List Attr) (n : Nat),
    (∀ i, n ≤ i → i < n + desc.length →
      datums[i]? = some (dval i) ∧ nulls[i]? = some (bval i)) →
    decodeCols datums nulls (List.enumFrom n desc) =
      some ((List.enumFrom n desc).map fun p =>
        (p.2.name, if bval p.1 then none else some (dval p.1), p.2.atttypid)) := by
  intro desc
  induction desc with
  | nil => intro n _; rfl
  | cons a rest ih =>
      intro n h
      have hn := h n (Nat.le_refl n) (by simp only [List.length_cons]; omega)
      have hrest := ih (n + 1) (fun i hi1 hi2 =>
        h i (by omega) (by simp only [List.length_cons]; omega))
      rw [List.enumFrom_cons]
      simp [decodeCols, hn.1, hn.2, hrest]

lemma storedCell_if {Item : Type} (intoDatum : Item → Option Datum)
    (row : List Item) (k : Nat) :
    (if (storedCell intoDatum row k).2 then none
     else some ((storedCell intoDatum row k).1)) = (row[k]?).bind intoDatum := by
  cases hx : (row[k]?).bind intoDatum <;> simp [storedCell, hx]

/-- C3: the Decode direction applied to the slot filled by the Encode
direction recovers, for every descriptor column, the column name, the raw
value the corresponding plugin item converted to (none for an omitted or
non-converting item, that is SQL NULL), and the column type oid. -/
theorem codec_round_trip {Item : Type} (slot : Slot) (desc : TupleDesc)
    (intoDatum : Item → Option Datum) (row : List Item) :
    slot_to_tuples (store_tuple slot desc intoDatum row) desc =
      some (desc.enum.map fun p =>
        (p.2.name, (row[p.1]?).bind intoDatum, p.2.atttypid)) := by
  have hB := store_tuple_backing slot desc intoDatum row
  have hBlen : (store_tuple slot desc intoDatum row).backing.length = desc.length := by
    rw [hB]; simp
  have hnv : (store_tuple slot desc intoDatum row).nvalid = 0 := rfl
  have hmat : materialize (store_tuple slot desc intoDatum row) desc.length =
      ⟨(store_tuple slot desc intoDatum row).backing, desc.length⟩ := by
    rw [materialize, if_pos hnv, get_some_attrs]
    rw [hBlen]
    simp
  have hdec := decodeCols_spec
    ((store_tuple slot desc intoDatum row).backing.map Prod.fst)
    ((store_tuple slot desc intoDatum row).backing.map Prod.snd)
    (fun k => (storedCell intoDatum row k).1)
    (fun k => (storedCell intoDatum row k).2)
    desc 0
    (by
      intro i _ hi2
      have hi : i < desc.length := by omega
      have hBi : (store_tuple slot desc intoDatum row).backing[i]? =
          some (storedCell intoDatum row i) := by
        rw [hB, List.getElem?_map, List.getElem?_range hi]
        rfl
      constructor <;> rw [List.getElem?_map, hBi] <;> rfl)
  have hfun : (fun p : Nat × Attr =>
      (p.2.name,
        if (storedCell intoDatum row p.1).2 then none
        else some ((storedCell intoDatum row p.1).1),
        p.2.atttypid)) = (fun p : Nat × Attr =>
      ((p.2.name, (row[p.1]?).bind intoDatum, p.2.atttypid) : Tuple)) := by
    funext p
    rw [← storedCell_if intoDatum row p.1]
  rw [slot_to_tuples, slot_to_tuplesM]
  simp only [hmat]
  rw [show (⟨(store_tuple slot desc intoDatum row).backing,
      desc.length⟩ : Slot).backing.take
      (⟨(store_tuple slot desc intoDatum row).backing, desc.length⟩ : Slot).nvalid =
      (store_tuple slot desc intoDatum row).backing from
    List.take_of_length_le (Nat.le_of_eq hBlen)]
  rw [show desc.enum = List.enumFrom 0 desc from rfl] at *
  rw [hdec, hfun]
  rfl

lemma getElem?_isSome_of_lt {α : Type _} {l : List α} {i : Nat} (h : i < l.length) :
    (l[i]?).isSome := by
  rw [List.getElem?_eq_getElem h]
  rfl

lemma decodeCols_isSome (datums : List Datum) (nulls : List Bool) :
    ∀ (desc : List Attr) (n : Nat),
    (∀ i, n ≤ i → i < n + desc.length → i < datums.length ∧ i < nulls.length) →
    (decodeCols datums nulls (List.enumFrom n desc)).isSome := by
  intro desc
  induction desc with
  | nil => intro n _; rfl
  | cons a rest ih =>
      intro n h
      have hn := h n (Nat.le_refl n) (by simp only [List.length_cons]; omega)
      have hrest := ih (n + 1) (fun i hi1 hi2 =>
        h i (by omega) (by simp only [List.length_cons]; omega))
      rw [List.enumFrom_cons]
      cases hr : decodeCols datums nulls (List.enumFrom (n + 1) rest) with
      | none => rw [hr] at hrest; cases hrest
      | some ts =>
          simp [decodeCols, List.getElem?_eq_getElem hn.1,
            List.getElem?_eq_getElem hn.2, hr]

/-- The length of the materialized value and null slices: min of tts_nvalid
and the backing data, after the zero-triggered materialization. -/
lemma materialize_nvalid (slot : Slot) (natts : Nat) :
    (materialize slot natts).nvalid = if slot.nvalid = 0 then natts else slot.nvalid := by
  rw [materialize]
  split <;> rfl

lemma materialize_backing_length (slot : Slot) (natts : Nat) :
    natts ≤ (materialize slot natts).backing.length ∨
      (materialize slot natts) = slot := by
  rw [materialize]
  split
  · left
    simp [get_some_attrs]
    omega
  · right
    rfl

/-- C4 (amended): the Decode direction indexes the value and null slices
exactly at indices 0 .. natts-1, one per descriptor column.  When the slot
arrives unmaterialized (tts_nvalid = 0, so materialization of all natts
columns is triggered first) or fully materialized for the descriptor
(natts ≤ tts_nvalid, with the slices backed by at least tts_nvalid entries),
every such index is strictly below the materialized-column count and the
decode succeeds.  (For a partially materialized slot with
0 < tts_nvalid < natts the decode indexes at or beyond the bound; see the
counterexample.) -/
theorem slot_to_tuples_reads_in_bounds (slot : Slot) (desc : TupleDesc)
    (h : slot.nvalid = 0 ∨
      (desc.length ≤ slot.nvalid ∧ slot.nvalid ≤ slot.backing.length)) :
    (∀ i ∈ slot_to_tuples_reads desc, i < (materialize slot desc.length).nvalid) ∧
    (slot_to_tuplesM slot desc).isSome := by
  have harr : ∀ i, i < desc.length →
      i < ((materialize slot desc.length).backing.take
        (materialize slot desc.length).nvalid).length := by
    intro i hi
    rw [List.length_take]
    rcases h with h0 | ⟨hle, hbl⟩
    · rw [materialize, if_pos h0, get_some_attrs]
      simp only [List.length_append, List.length_replicate]
      omega
    · by_cases h0 : slot.nvalid = 0
      · rw [materialize, if_pos h0, get_some_attrs]
        simp only [List.length_append, List.length_replicate]
        omega
      · rw [materialize, if_neg h0]
        omega
  constructor
  · intro i hi
    have hi' : i < desc.length := by
      simpa [slot_to_tuples_reads, List.mem_range] using hi
    rcases h with h0 | ⟨hle, hbl⟩
    · rw [materialize_nvalid, if_pos h0]
      exact hi'
    · rw [materialize_nvalid]
      split <;> omega
  · rw [slot_to_tuplesM]
    have hs := decodeCols_isSome
      (((materialize slot desc.length).backing.take
        (materialize slot desc.length).nvalid).map Prod.fst)
      (((materialize slot desc.length).backing.take
        (materialize slot desc.length).nvalid).map Prod.snd)
      desc 0
      (by
        intro i _ hi2
        have hi : i < desc.length := by omega
        constructor <;> rw [List.length_map] <;> exact harr i hi)
    rw [show desc.enum = List.enumFrom 0 desc from rfl]
    cases hr : decodeCols
        (((materialize slot desc.length).backing.take
          (materialize slot desc.length).nvalid).map Prod.fst)
        (((materialize slot desc.length).backing.take
          (materialize slot desc.length).nvalid).map Prod.snd)
        (List.enumFrom 0 desc) with
    | none => rw [hr] at hs; cases hs
    | some ts => simp [hr]

/-- C4 (counterexample): a slot materialized for one column whose
descriptor declares two columns.  The decode tries to index the slices at
index 1, which is at (not below) the materialized-column bound 1: an
out-of-bounds slice access (a panic, modelled by `none`). -/
theorem slot_to_tuples_reads_oob :
    (1 ∈ slot_to_tuples_reads
      [⟨"a", 1, 25, 0, 0⟩, ⟨"b", 2, 25, 0, 0⟩]) ∧
    (materialize ⟨[(1, false), (2, false)], 1⟩
      ([⟨"a", 1, 25, 0, 0⟩, ⟨"b", 2, 25, 0, 0⟩] : TupleDesc).length).nvalid = 1 ∧
    slot_to_tuplesM ⟨[(1, false), (2, false)], 1⟩
      [⟨"a", 1, 25, 0, 0⟩, ⟨"b", 2, 25, 0, 0⟩] = none := by
  refine ⟨by decide, rfl, rfl⟩

/-! ## Scan lifecycle (FdwState is the session state) -/

/-- The scan-relevant part of FdwState<T>: the row-cursor raw pointer,
null before the first Iterate call (`none`), afterwards an owning pointer to
the row producer with its remaining rows (`some remaining`). -/
structure ScanState (Row : Type) where
  itr : Option (List Row)
deriving Repr, DecidableEq

/-- FdwState::begin_foreign_scan: fresh capability state and a null
row-cursor stored in the per-node slot. -/
def begin_foreign_scan (Row : Type) : ScanState Row :=
  ⟨none⟩

/-- FdwState::itr_next: when the stored cursor is null, call the capability
`execute` (the Bool records that call), obtain the producer, pull its first
item and box the advanced producer; otherwise pull the next item from the
stored producer.  `rows` is the row sequence `execute` yields. -/
def itr_next {Row : Type} (rows : List Row) (s : ScanState Row) :
    Option Row × List Row × Bool :=
  match s.itr with
  | none => (rows.head?, rows.tail, true)
  | some l => (l.head?, l.tail, false)

/-- FdwState::iterate_foreign_scan: clear the scan slot, pull the next item
via itr_next, store the (possibly new) producer pointer back into the
session state, and return either the cleared slot (exhaustion) or the slot
filled by store_tuple.  The Bool reports whether `execute` was invoked. -/
def iterate_foreign_scan {Item : Type} (intoDatum : Item → Option Datum)
    (desc : TupleDesc) (rows : List (List Item)) (s : ScanState (List Item))
    (scanSlot : Slot) : Slot × ScanState (List Item) × Bool :=
  let slot := exec_clear_tuple scanSlot
  let r := itr_next rows s
  let out := match r.1 with
    | none => slot
    | some row => store_tuple slot desc intoDatum row
  (out, ⟨some r.2.1⟩, r.2.2)

/-- n Iterate calls from a freshly begun scan: final session state and the
number of `execute` invocations observed. -/
def runScan {Item : Type} (intoDatum : Item → Option Datum) (desc : TupleDesc)
    (rows : List (List Item)) (scanSlot : Slot) :
    Nat → ScanState (List Item) × Nat
  | 0 => (begin_foreign_scan (List Item), 0)
  | n + 1 =>
    let p := runScan intoDatum desc rows scanSlot n
    let r := iterate_foreign_scan intoDatum desc rows p.1 scanSlot
    (r.2.1, p.2 + if r.2.2 then 1 else 0)

lemma runScan_spec {Item : Type} (intoDatum : Item → Option Datum)
    (desc : TupleDesc) (rows : List (List Item)) (scanSlot : Slot) (n : Nat) :
    (runScan intoDatum desc rows scanSlot n).1.itr =
      (if n = 0 then none else some (rows.drop n)) ∧
    (runScan intoDatum desc rows scanSlot n).2 = min n 1 := by
  induction n with
  | zero => exact ⟨rfl, rfl⟩
  | succ n ih =>
      cases n with
      | zero =>
          refine ⟨?_, rfl⟩
          show (⟨some rows.tail⟩ : ScanState (List Item)).itr = some (rows.drop 1)
          rw [List.drop_one]
      | succ m =>
          have h1 := ih.1
          have h2 := ih.2
          rw [if_neg (Nat.succ_ne_zero m)] at h1
          constructor
          · show (⟨some (itr_next rows (runScan intoDatum desc rows scanSlot
              (m + 1)).1).2.1⟩ : ScanState (List Item)).itr = _
            rw [if_neg (Nat.succ_ne_zero (m + 1))]
            rw [show itr_next rows (runScan intoDatum desc rows scanSlot (m + 1)).1 =
              ((rows.drop (m + 1)).head?, (rows.drop (m + 1)).tail, false) from by
                rw [itr_next, h1]]
            rw [List.tail_drop]
          · show (runScan intoDatum desc rows scanSlot (m + 1)).2 +
              (if (itr_next rows (runScan intoDatum desc rows scanSlot
                (m + 1)).1).2.2 then 1 else 0) = min (m + 2) 1
            rw [show itr_next rows (runScan intoDatum desc rows scanSlot (m + 1)).1 =
              ((rows.drop (m + 1)).head?, (rows.drop (m + 1)).tail, false) from by
                rw [itr_next, h1], h2]
            simp

/-- C1: across any number n of Iterate calls in one scan session, the
capability `execute` is invoked exactly once as soon as any Iterate call
occurs (zero times for n = 0, once for every n at least 1): the first
Iterate call creates the row producer and stores it in the session state,
and every later call pulls from that stored producer (holding the rows not
yet returned) without invoking `execute` again. -/
theorem execute_called_once {Item : Type} (intoDatum : Item → Option Datum)
    (desc : TupleDesc) (rows : List (List Item)) (scanSlot : Slot) (n : Nat) :
    (runScan intoDatum desc rows scanSlot n).2 = min n 1 ∧
    (runScan intoDatum desc rows scanSlot n).1.itr =
      (if n = 0 then none else some (rows.drop n)) :=
  ⟨(runScan_spec intoDatum desc rows scanSlot n).2,
   (runScan_spec intoDatum desc rows scanSlot n).1⟩

/-- C2: once the producer of a scan session has yielded its last row (n
Iterate calls have happened with n at least 1 and at least the row count),
every further Iterate call returns the cleared scan slot, leaves the session
state untouched (so the same holds for all subsequent calls), and does not
invoke `execute` (and, the embedding being total, raises no error). -/
theorem iterate_after_exhaustion {Item : Type} (intoDatum : Item → Option Datum)
    (desc : TupleDesc) (rows : List (List Item)) (scanSlot : Slot) (n : Nat)
    (h1 : 1 ≤ n) (h2 : rows.length ≤ n) :
    iterate_foreign_scan intoDatum desc rows
        (runScan intoDatum desc rows scanSlot n).1 scanSlot =
      (exec_clear_tuple scanSlot,
       (runScan intoDatum desc rows scanSlot n).1, false) := by
  have hitr := (runScan_spec intoDatum desc rows scanSlot n).1
  rw [if_neg (by omega), List.drop_eq_nil_of_le h2] at hitr
  have hstate : (runScan intoDatum desc rows scanSlot n).1 = ⟨some []⟩ := by
    rcases hs : (runScan intoDatum desc rows scanSlot n).1 with ⟨itr⟩
    rw [hs] at hitr
    simp only at hitr
    rw [hitr]
  rw [hstate]
  rfl

/-- Witness for C2 at a concrete one-row scan, exhausted after one
Iterate call. -/
theorem iterate_after_exhaustion_witness :
    (1 ≤ 1 ∧ ([[ (5 : Nat) ]] : List (List Nat)).length ≤ 1) ∧
    iterate_foreign_scan (fun i : Nat => some i) [⟨"a", 1, 25, 0, 0⟩]
        [[5]] (runScan (fun i : Nat => some i) [⟨"a", 1, 25, 0, 0⟩]
          [[5]] ⟨[(3, false)], 1⟩ 1).1 ⟨[(3, false)], 1⟩ =
      (exec_clear_tuple ⟨[(3, false)], 1⟩,
       (runScan (fun i : Nat => some i) [⟨"a", 1, 25, 0, 0⟩]
         [[5]] ⟨[(3, false)], 1⟩ 1).1, false) :=
  ⟨⟨by decide, by decide⟩,
   iterate_after_exhaustion (fun i : Nat => some i) [⟨"a", 1, 25, 0, 0⟩]
     [[5]] ⟨[(3, false)], 1⟩ 1 (by decide) (by decide)⟩

/-- Witness for C4 (amended) at a concrete unmaterialized two-column slot. -/
theorem slot_to_tuples_reads_in_bounds_witness :
    ((⟨[(7, false), (8, true)], 0⟩ : Slot).nvalid = 0 ∨
      (([⟨"a", 1, 25, 0, 0⟩, ⟨"b", 2, 25, 0, 0⟩] : TupleDesc).length ≤
          (⟨[(7, false), (8, true)], 0⟩ : Slot).nvalid ∧
        (⟨[(7, false), (8, true)], 0⟩ : Slot).nvalid ≤
          (⟨[(7, false), (8, true)], 0⟩ : Slot).backing.length)) ∧
    ((∀ i ∈ slot_to_tuples_reads [⟨"a", 1, 25, 0, 0⟩, ⟨"b", 2, 25, 0, 0⟩],
        i < (materialize ⟨[(7, false), (8, true)], 0⟩
          ([⟨"a", 1, 25, 0, 0⟩, ⟨"b", 2, 25, 0, 0⟩] : TupleDesc).length).nvalid) ∧
      (slot_to_tuplesM ⟨[(7, false), (8, true)], 0⟩
        [⟨"a", 1, 25, 0, 0⟩, ⟨"b", 2, 25, 0, 0⟩]).isSome) :=
  ⟨Or.inl rfl,
   slot_to_tuples_reads_in_bounds ⟨[(7, false), (8, true)], 0⟩
     [⟨"a", 1, 25, 0, 0⟩, ⟨"b", 2, 25, 0, 0⟩] (Or.inl rfl)⟩

/-- C10: the Encode direction is strictly positional: the stored row has one
cell per descriptor column, the k-th cell holding the raw value the k-th
plugin item converts to (null when the item converts to nothing or the row
has no k-th item, with no shifting of later items), and plugin items beyond
the column count are silently ignored (the stored row only depends on the
first natts items). -/
theorem store_tuple_positional {Item : Type} (slot : Slot) (desc : TupleDesc)
    (intoDatum : Item → Option Datum) (row : List Item) :
    (store_tuple slot desc intoDatum row).backing =
      (List.range desc.length).map (storedCell intoDatum row) ∧
    store_tuple slot desc intoDatum row =
      store_tuple slot desc intoDatum (row.take desc.length) := by
  refine ⟨store_tuple_backing slot desc intoDatum row, ?_⟩
  have hb : (store_tuple slot desc intoDatum row).backing =
      (store_tuple slot desc intoDatum (row.take desc.length)).backing := by
    rw [store_tuple_backing, store_tuple_backing]
    apply List.map_congr_left
    intro k hk
    have hk' : k < desc.length := List.mem_range.mp hk
    simp [storedCell, List.getElem?_take_of_lt hk']
  calc store_tuple slot desc intoDatum row
      = ⟨(store_tuple slot desc intoDatum row).backing, 0⟩ := rfl
    _ = ⟨(store_tuple slot desc intoDatum (row.take desc.length)).backing, 0⟩ := by
        rw [hb]
    _ = store_tuple slot desc intoDatum (row.take desc.length) := rfl

/-! ## Modify-target lifecycle (AddForeignUpdateTargets) -/

/-- A planner Var node, with the fields makeVar receives. -/
structure Var where
  varno : Nat
  varattno : Nat
  vartype : Oid
  vartypmod : Int
  varcollid : Nat
  varlevelsup : Nat
deriving Repr, DecidableEq

/-- A TargetEntry node (expression, resno, resname, resjunk flag). -/
structure TargetEntry where
  expr : Var
  resno : Nat
  resname : String
  resjunk : Bool
deriving Repr, DecidableEq

/-- pg_sys::makeVar as called by the adapter: references the result
relation and the attribute number, type, typmod and collation of `attr`. -/
def makeVar (resultRelation : Nat) (attr : Attr) : Var :=
  ⟨resultRelation, attr.attnum, attr.atttypid, attr.atttypmod, attr.attcollation, 0⟩

/-- pg_sys::makeTargetEntry as called by the adapter. -/
def makeTargetEntry (v : Var) (resno : Nat) (resname : String) (resjunk : Bool) :
    TargetEntry :=
  ⟨v, resno, resname, resjunk⟩

/-- FdwState::add_foreign_update_targets: when the capability declares
identity columns, push one junk TargetEntry (resno = current length + 1)
onto the statement target list for every descriptor attribute whose name is
among the declared keys; with no declared keys the target list is left
alone. -/
def add_foreign_update_targets (indices : Option (List String))
    (resultRelation : Nat) (desc : TupleDesc) (targetList : List TargetEntry) :
    List TargetEntry :=
  match indices with
  | none => targetList
  | some keys =>
    (desc.filter (fun attr => attr.name ∈ keys)).foldl
      (fun list attr =>
        list ++ [makeTargetEntry (makeVar resultRelation attr)
          (list.length + 1) attr.name true])
      targetList

/-- C5: when `indices` declares `{"id"}`, the descriptor has exactly one
"id" column and the statement target list does not select "id", the
modify-target step appends exactly one synthetic (resjunk) "id" entry whose
Var carries that column's attribute number and type oid, at the next resno. -/
theorem add_update_targets_injects_id (resultRelation : Nat) (desc : TupleDesc)
    (targetList : List TargetEntry) (a : Attr)
    (hdesc : desc.filter (fun attr => attr.name ∈ (["id"] : List String)) = [a])
    (htl : ∀ e ∈ targetList, e.resname ≠ "id") :
    add_foreign_update_targets (some ["id"]) resultRelation desc targetList =
      targetList ++ [makeTargetEntry (makeVar resultRelation a)
        (targetList.length + 1) a.name true] ∧
    a.name = "id" ∧
    ((add_foreign_update_targets (some ["id"]) resultRelation desc
      targetList).filter (fun e => e.resname = "id")).length = 1 := by
  have hmem : a ∈ desc.filter (fun attr => attr.name ∈ (["id"] : List String)) := by
    rw [hdesc]
    exact List.mem_singleton.mpr rfl
  have hname : a.name = "id" := by
    have h2 := (List.mem_filter.mp hmem).2
    simpa using h2
  have heq : add_foreign_update_targets (some ["id"]) resultRelation desc
      targetList = targetList ++ [makeTargetEntry (makeVar resultRelation a)
        (targetList.length + 1) a.name true] := by
    show (desc.filter (fun attr => attr.name ∈ (["id"] : List String))).foldl
        _ targetList = _
    rw [hdesc]
    rfl
  refine ⟨heq, hname, ?_⟩
  rw [heq, List.filter_append]
  have h1 : targetList.filter (fun e => e.resname = "id") = [] := by
    rw [List.filter_eq_nil_iff]
    intro e he
    simpa using htl e he
  rw [h1]
  simp [makeTargetEntry, hname]

/-- Witness for C5: a two-column users table whose statement target list
holds only a "name" entry. -/
theorem add_update_targets_injects_id_witness :
    (([⟨"id", 1, 25, 0, 0⟩, ⟨"name", 2, 25, 0, 0⟩] : TupleDesc).filter
        (fun attr => attr.name ∈ (["id"] : List String)) = [⟨"id", 1, 25, 0, 0⟩] ∧
      (∀ e ∈ [makeTargetEntry (makeVar 1 ⟨"name", 2, 25, 0, 0⟩) 1 "name" false],
        e.resname ≠ "id")) ∧
    (add_foreign_update_targets (some ["id"]) 1
        [⟨"id", 1, 25, 0, 0⟩, ⟨"name", 2, 25, 0, 0⟩]
        [makeTargetEntry (makeVar 1 ⟨"name", 2, 25, 0, 0⟩) 1 "name" false] =
      [makeTargetEntry (makeVar 1 ⟨"name", 2, 25, 0, 0⟩) 1 "name" false] ++
        [makeTargetEntry (makeVar 1 ⟨"id", 1, 25, 0, 0⟩) 2 "id" true] ∧
      (⟨"id", 1, 25, 0, 0⟩ : Attr).name = "id" ∧
      ((add_foreign_update_targets (some ["id"]) 1
          [⟨"id", 1, 25, 0, 0⟩, ⟨"name", 2, 25, 0, 0⟩]
          [makeTargetEntry (makeVar 1 ⟨"name", 2, 25, 0, 0⟩) 1 "name" false]).filter
        (fun e => e.resname = "id")).length = 1) :=
  ⟨⟨by decide, by decide⟩,
   add_update_targets_injects_id 1
     [⟨"id", 1, 25, 0, 0⟩, ⟨"name", 2, 25, 0, 0⟩]
     [makeTargetEntry (makeVar 1 ⟨"name", 2, 25, 0, 0⟩) 1 "name" false]
     ⟨"id", 1, 25, 0, 0⟩ (by decide) (by decide)⟩

/-! ## Modify lifecycle (ExecForeignInsert / Update / Delete) -/

/-- FdwState::exec_foreign_insert: decode the incoming slot with its own
descriptor, call the capability insert (its return value is bound to
`_result` and dropped), and return the incoming slot.  The output records
the returned slot and the tuples handed to the capability. -/
def exec_foreign_insert
    (insertFn : TupleDesc → List Tuple → Option (List Tuple))
    (slot : Slot) (desc : TupleDesc) : Option (Slot × List Tuple) :=
  match slot_to_tuplesM slot desc with
  | none => none
  | some (s, ts) =>
    let _result := insertFn desc ts
    some (s, ts)

/-- FdwState::exec_foreign_update: decode the new-row slot and the plan
slot (identity row), call the capability update (return value dropped), and
return the new-row slot. -/
def exec_foreign_update
    (updateFn : TupleDesc → List Tuple → List Tuple → Option (List Tuple))
    (slot planSlot : Slot) (desc planDesc : TupleDesc) :
    Option (Slot × List Tuple × List Tuple) :=
  match slot_to_tuplesM slot desc, slot_to_tuplesM planSlot planDesc with
  | some (s, ts), some (_ps, idxs) =>
    let _result := updateFn desc ts idxs
    some (s, ts, idxs)
  | _, _ => none

/-- FdwState::exec_foreign_delete: decode only the plan slot (identity
row), call the capability delete (return value dropped), and return the
untouched incoming slot. -/
def exec_foreign_delete
    (deleteFn : TupleDesc → List Tuple → Option (List Tuple))
    (slot planSlot : Slot) (planDesc : TupleDesc) : Option (Slot × List Tuple) :=
  match slot_to_tuplesM planSlot planDesc with
  | none => none
  | some (_ps, ts) =>
    let _result := deleteFn planDesc ts
    some (slot, ts)

lemma slot_to_tuplesM_eq_some {slot : Slot} {desc : TupleDesc}
    {r : Slot × List Tuple} (h : slot_to_tuplesM slot desc = some r) :
    r.1 = materialize slot desc.length ∧ slot_to_tuples slot desc = some r.2 := by
  simp only [slot_to_tuplesM, Option.map_eq_some'] at h
  obtain ⟨ts, hts, hr⟩ := h
  subst hr
  refine ⟨rfl, ?_⟩
  simp only [slot_to_tuples, slot_to_tuplesM]
  rw [hts]
  rfl

lemma materialize_backing_take (slot : Slot) (natts : Nat) :
    (materialize slot natts).backing.take slot.backing.length = slot.backing := by
  rw [materialize]
  split
  · rw [get_some_attrs]
    exact List.take_left slot.backing _
  · exact List.take_length slot.backing

/-- C9: each modify entry point decodes the incoming host slot(s) into
Tuples via the codec, hands exactly those Tuples to the capability method,
discards the capability's returned value (the result is the same whatever
the capability returns), and returns the incoming slot: delete returns it
untouched; insert and update return it with its row data intact, changed at
most by the materialization the decode triggered. -/
theorem exec_modify_frame
    (insF insG : TupleDesc → List Tuple → Option (List Tuple))
    (updF updG : TupleDesc → List Tuple → List Tuple → Option (List Tuple))
    (delF delG : TupleDesc → List Tuple → Option (List Tuple))
    (slot planSlot : Slot) (desc planDesc : TupleDesc) :
    exec_foreign_insert insF slot desc = exec_foreign_insert insG slot desc ∧
    exec_foreign_update updF slot planSlot desc planDesc =
      exec_foreign_update updG slot planSlot desc planDesc ∧
    exec_foreign_delete delF slot planSlot planDesc =
      exec_foreign_delete delG slot planSlot planDesc ∧
    (∀ r, exec_foreign_insert insF slot desc = some r →
      r.1.backing.take slot.backing.length = slot.backing ∧
      slot_to_tuples slot desc = some r.2) ∧
    (∀ r, exec_foreign_update updF slot planSlot desc planDesc = some r →
      r.1.backing.take slot.backing.length = slot.backing ∧
      slot_to_tuples slot desc = some r.2.1 ∧
      slot_to_tuples planSlot planDesc = some r.2.2) ∧
    (∀ r, exec_foreign_delete delF slot planSlot planDesc = some r →
      r.1 = slot ∧ slot_to_tuples planSlot planDesc = some r.2) := by
  refine ⟨?_, ?_, ?_, ?_, ?_, ?_⟩
  · cases hm : slot_to_tuplesM slot desc with
    | none => simp [exec_foreign_insert, hm]
    | some p => cases p; simp [exec_foreign_insert, hm]
  · cases hm : slot_to_tuplesM slot desc with
    | none => simp [exec_foreign_update, hm]
    | some p =>
        cases hp : slot_to_tuplesM planSlot planDesc with
        | none => cases p; simp [exec_foreign_update, hm, hp]
        | some q => cases p; cases q; simp [exec_foreign_update, hm, hp]
  · cases hm : slot_to_tuplesM planSlot planDesc with
    | none => simp [exec_foreign_delete, hm]
    | some p => cases p; simp [exec_foreign_delete, hm]
  · intro r hr
    cases hm : slot_to_tuplesM slot desc with
    | none => rw [exec_foreign_insert, hm] at hr; cases hr
    | some p =>
        cases p with
        | mk s ts =>
            rw [exec_foreign_insert, hm] at hr
            cases hr
            have h := slot_to_tuplesM_eq_some hm
            exact ⟨(by
                rw [h.1]
                exact materialize_backing_take slot desc.length),
              h.2⟩
  · intro r hr
    cases hm : slot_to_tuplesM slot desc with
    | none => rw [exec_foreign_update, hm] at hr; cases hr
    | some p =>
        cases hp : slot_to_tuplesM planSlot planDesc with
        | none => cases p; rw [exec_foreign_update, hm, hp] at hr; cases hr
        | some q =>
            cases p with
            | mk s ts =>
                cases q with
                | mk ps idxs =>
                    rw [exec_foreign_update, hm, hp] at hr
                    cases hr
                    have h1 := slot_to_tuplesM_eq_some hm
                    have h2 := slot_to_tuplesM_eq_some hp
                    exact ⟨(by
                        rw [h1.1]
                        exact materialize_backing_take slot desc.length),
                      h1.2, h2.2⟩
  · intro r hr
    cases hm : slot_to_tuplesM planSlot planDesc with
    | none => rw [exec_foreign_delete, hm] at hr; cases hr
    | some p =>
        cases p with
        | mk ps ts =>
            rw [exec_foreign_delete, hm] at hr
            cases hr
            have h := slot_to_tuplesM_eq_some hm
            exact ⟨rfl, h.2⟩

/-- Witness for C9 at concrete slots, descriptors and capability methods,
discharging the conditional conjuncts at the concrete decode results. -/
theorem exec_modify_frame_witness :
    exec_foreign_insert (fun _ _ => none) ⟨[(4, false)], 0⟩ [⟨"a", 1, 25, 0, 0⟩] =
      some (⟨[(4, false)], 1⟩, [("a", some 4, 25)]) ∧
    ((((⟨[(4, false)], 1⟩ : Slot), ([("a", some 4, 25)] : List Tuple)) :
        Slot × List Tuple).1.backing.take
        (⟨[(4, false)], 0⟩ : Slot).backing.length =
      (⟨[(4, false)], 0⟩ : Slot).backing ∧
      slot_to_tuples ⟨[(4, false)], 0⟩ [⟨"a", 1, 25, 0, 0⟩] =
        some [("a", some 4, 25)]) ∧
    (∀ r, exec_foreign_delete (fun _ _ => none) ⟨[(9, true)], 1⟩
        ⟨[(4, false)], 0⟩ [⟨"a", 1, 25, 0, 0⟩] = some r →
      r.1 = ⟨[(9, true)], 1⟩ ∧
      slot_to_tuples ⟨[(4, false)], 0⟩ [⟨"a", 1, 25, 0, 0⟩] = some r.2) :=
  ⟨by decide,
   (exec_modify_frame (fun _ _ => none) (fun _ _ => none)
      (fun _ _ _ => none) (fun _ _ _ => none) (fun _ _ => none)
      (fun _ _ => none) ⟨[(4, false)], 0⟩ ⟨[(4, false)], 0⟩
      [⟨"a", 1, 25, 0, 0⟩] [⟨"a", 1, 25, 0, 0⟩]).2.2.2.1
     (⟨[(4, false)], 1⟩, [("a", some 4, 25)]) (by decide),
   (exec_modify_frame (fun _ _ => none) (fun _ _ => none)
      (fun _ _ _ => none) (fun _ _ _ => none) (fun _ _ => none)
      (fun _ _ => none) ⟨[(9, true)], 1⟩ ⟨[(4, false)], 0⟩
      [⟨"a", 1, 25, 0, 0⟩] [⟨"a", 1, 25, 0, 0⟩]).2.2.2.2.2⟩

/-! ## Option Catalog Reader claims -/

/-- C7: from_relation built over a server option list decoding to `ps1` and
a table option list decoding to `ps2` succeeds and yields exactly the
key/value mappings of those lists with duplicate keys resolved
last-write-wins, plus the table identity; and absent (null) option lists
yield empty mappings and no error. -/
theorem from_relation_options (L1 L2 : List Elem)
    (ps1 ps2 : List (String × String)) (nm ns : String)
    (h1 : decode_elems L1 = some ps1) (h2 : decode_elems L2 = some ps2) :
    (∃ o, from_relation (some L1) (some L2) nm ns = some o ∧
      (∀ k, o.server_opts k = lastValue ps1 k) ∧
      (∀ k, o.table_opts k = lastValue ps2 k) ∧
      o.table_name = nm ∧ o.table_namespace = ns) ∧
    (∃ o, from_relation none none nm ns = some o ∧
      (∀ k, o.server_opts k = none) ∧ (∀ k, o.table_opts k = none)) := by
  constructor
  · refine ⟨⟨ps1.foldl hmInsert fun _ => none, ps2.foldl hmInsert fun _ => none,
      nm, ns⟩, ?_, ?_, ?_, rfl, rfl⟩
    · simp [from_relation, from_pg_list, h1, h2]
    · intro k
      exact collect_eq_lastValue ps1 k
    · intro k
      exact collect_eq_lastValue ps2 k
  · exact ⟨⟨fun _ => none, fun _ => none, nm, ns⟩, rfl, fun _ => rfl, fun _ => rfl⟩

/-- Witness for C7 at a concrete server list with a duplicated key and an
empty table list. -/
theorem from_relation_options_witness :
    (decode_elems [⟨some "host", some "h1"⟩, ⟨some "host", some "h2"⟩] =
        some [("host", "h1"), ("host", "h2")] ∧
      decode_elems [] = some []) ∧
    ((∃ o, from_relation
        (some [⟨some "host", some "h1"⟩, ⟨some "host", some "h2"⟩])
        (some []) "users" "public" = some o ∧
      (∀ k, o.server_opts k = lastValue [("host", "h1"), ("host", "h2")] k) ∧
      (∀ k, o.table_opts k = lastValue [] k) ∧
      o.table_name = "users" ∧ o.table_namespace = "public") ∧
    (∃ o, from_relation none none "users" "public" = some o ∧
      (∀ k, o.server_opts k = none) ∧ (∀ k, o.table_opts k = none))) :=
  ⟨⟨rfl, rfl⟩,
   from_relation_options [⟨some "host", some "h1"⟩, ⟨some "host", some "h2"⟩]
     [] [("host", "h1"), ("host", "h2")] [] "users" "public" rfl rfl⟩

/-- C8: an option list holding an element whose key or value does not
decode as text makes the reader fail the whole call (a fatal error, not a
skip or a partial mapping), whichever of the two lists it sits in. -/
theorem from_relation_fatal_on_bad_elem (L : List Elem) (e : Elem)
    (he : e ∈ L) (hbad : e.defname = none ∨ e.argval = none)
    (other : Option (List Elem)) (nm ns : String) :
    from_pg_list (some L) = none ∧
    from_relation (some L) other nm ns = none ∧
    from_relation other (some L) nm ns = none := by
  have hd := decode_elems_eq_none_of_bad he hbad
  refine ⟨by simp [from_pg_list, hd],
    by simp [from_relation, from_pg_list, hd], ?_⟩
  cases other with
  | none => simp [from_relation, from_pg_list, hd]
  | some l =>
      cases hl : decode_elems l <;>
        simp [from_relation, from_pg_list, hd, hl]

/-- Witness for C8 at a one-element list whose key bytes do not decode. -/
theorem from_relation_fatal_on_bad_elem_witness :
    ((⟨none, some "v"⟩ : Elem) ∈ [(⟨none, some "v"⟩ : Elem)] ∧
      ((⟨none, some "v"⟩ : Elem).defname = none ∨
        (⟨none, some "v"⟩ : Elem).argval = none)) ∧
    (from_pg_list (some [⟨none, some "v"⟩]) = none ∧
      from_relation (some [⟨none, some "v"⟩]) none "users" "public" = none ∧
      from_relation none (some [⟨none, some "v"⟩]) "users" "public" = none) :=
  ⟨⟨List.mem_singleton.mpr rfl, Or.inl rfl⟩,
   from_relation_fatal_on_bad_elem [⟨none, some "v"⟩] ⟨none, some "v"⟩
     (List.mem_singleton.mpr rfl) (Or.inl rfl) none "users" "public"⟩

/-! ## In-memory example plugin (examples/inmem_table) -/

namespace InMem

/-- The User row of the example: three text fields whose Default is the
empty string.  There is no null/absent state in the type. -/
structure User where
  id : String
  name : String
  email : String
deriving Repr, DecidableEq

/-- User::default(). -/
def defaultUser : User := ⟨"", "", ""⟩

/-- into_value::<String>: a None datum yields None, otherwise the host
conversion T::from_datum (a parameter `fd` of the model) is applied to the
raw datum and type oid. -/
def into_value (fd : Datum → Oid → Option String) (datum : Option Datum)
    (typoid : Oid) : Option String :=
  match datum with
  | some d => fd d typoid
  | none => none

/-- User::from_tuples: fold the tuples over a default User, dispatching on
column name.  The source calls `into_value(..).unwrap()`, which panics when
into_value is None, and `error!` on an unknown column name; both abort the
call (modelled as `none`). -/
def from_tuples (fd : Datum → Oid → Option String) (tuples : List Tuple) :
    Option User :=
  tuples.foldlM
    (fun t tr =>
      if tr.1 = "id" then
        (into_value fd tr.2.1 tr.2.2).map fun v => { t with id := v }
      else if tr.1 = "name" then
        (into_value fd tr.2.1 tr.2.2).map fun v => { t with name := v }
      else if tr.1 = "email" then
        (into_value fd tr.2.1 tr.2.2).map fun v => { t with email := v }
      else none)
    defaultUser

/-- InMemTable::insert: build a User from the tuples and push it onto the
shared table; a panic inside from_tuples aborts the insert with nothing
stored. -/
def inmem_insert (fd : Datum → Oid → Option String) (table : List User)
    (tuples : List Tuple) : Option (List User) :=
  (from_tuples fd tuples).map fun row => table ++ [row]

/-- The conversion the example uses for text datums, at a concrete
modelling of datum 3 as the text "3". -/
def fdText : Datum → Oid → Option String :=
  fun d _ => some (toString d)

/-- C6 (counterexample): dispatching the insert Tuple sequence
[("id", "3", text), ("name", none, text)] to the in-memory example aborts
(`into_value(..).unwrap()` panics on the null "name" value): no row is
stored at all, so no stored row records "name" in any form. -/
theorem insert_null_name_counterexample :
    inmem_insert fdText [] [("id", some 3, 25), ("name", none, 25)] = none := by
  rfl

/-- C6 (amended): for every host conversion and every current table
content, inserting [("id", "3", text), ("name", none, text)] returns an
error (the unwrap panic on the null name), storing nothing; in particular
"name" is never recorded as an empty string, nor as null. -/
theorem insert_null_name_aborts (fd : Datum → Oid → Option String)
    (table : List User) :
    inmem_insert fd table [("id", some 3, 25), ("name", none, 25)] = none := by
  cases hx : fd 3 25 with
  | none => simp [inmem_insert, from_tuples, into_value, hx]
  | some v => simp [inmem_insert, from_tuples, into_value, hx]

end InMem

end PgxFdw
